import Mathlib

/-!
Verification of the Multipack distributed dataloader
(`src/axolotl/utils/dataloader.py`).

Sample lengths are natural numbers (token counts).  Bin capacities and
remaining capacities are integers, because the greedy packer
`ffd_with_result` opens a fresh bin with remaining capacity `c - size`,
which is negative when a single sample exceeds the capacity.
-/

set_option linter.unusedVariables false

namespace Multipack

/-! ## Sorting model

`ffd_check` sorts the sizes descending via `np.sort(a)[::-1]`;
`ffd_with_result` sorts indices via `np.argsort(a)[::-1]`.  `np.argsort`
is modelled as the stable ascending argsort (ties in increasing index
order, matching numpy's stable behaviour on small arrays, where its
introsort falls back to insertion sort), which the `[::-1]` then
reverses.  The index comparison below is the corresponding total linear
order on indices. -/

def argLe (a : List Nat) (i j : Nat) : Prop :=
  a.getD i 0 < a.getD j 0 ∨ (a.getD i 0 = a.getD j 0 ∧ i ≤ j)

instance argLe.decidable (a : List Nat) : DecidableRel (argLe a) := fun i j => by
  unfold argLe; infer_instance

/-- `np.argsort(a)[::-1]`: indices of `a` sorted by decreasing value,
ties in decreasing index order (stable ascending argsort, reversed). -/
def argsortDesc (a : List Nat) : List Nat :=
  (List.insertionSort (argLe a) (List.range a.length)).reverse

/-- `np.sort(a)[::-1]`: the values of `a` sorted descending. -/
def sortDesc (a : List Nat) : List Nat :=
  (List.insertionSort (· ≤ ·) a).reverse

/-! ## Feasibility oracle `ffd_check`

`ffd_check(a, c, n)` checks whether the sizes `a` fit into `n` bins of
capacity `c` by first-fit-decreasing.  The inner `for idx in range(n)`
loop that looks for the first bin with `bins[idx] >= size` is
`ffdCheckPlace`; the outer `for size in a` loop is `ffdCheckRun`. -/

/-- One placement step of `ffd_check`: subtract `size` from the first
bin whose remaining capacity is at least `size`; `none` when no bin
fits (`not_found`). -/
def ffdCheckPlace (size : Nat) : List Int → Option (List Int)
  | [] => none
  | b :: bs =>
    if (size : Int) ≤ b then some ((b - size) :: bs)
    else (ffdCheckPlace size bs).map (b :: ·)

/-- The outer loop of `ffd_check` over the (already sorted) sizes. -/
def ffdCheckRun : List Nat → List Int → Bool
  | [], _ => true
  | size :: rest, bins =>
    match ffdCheckPlace size bins with
    | none => false
    | some bins2 => ffdCheckRun rest bins2

/-- `ffd_check(a, c, n)` from the source: can `a` fit in `n` bins of
capacity `c` under first-fit-decreasing? -/
def ffd_check (a : List Nat) (c : Int) (n : Nat) : Bool :=
  ffdCheckRun (sortDesc a) (List.replicate n c)

/-! ## Greedy packer `ffd_with_result`

Same greedy placement, but bins are grown lazily (not capped at `n`)
and each bin records the original item indices (offset by
`start_index`) placed into it.  A bin is a pair
`(remaining capacity, recorded indices)`, mirroring the two parallel
lists `bins` / `bins_result` of the source. -/

/-- One placement step of `ffd_with_result` over the existing bins:
append `pos` to the first bin that fits, `none` if no existing bin
fits (`add_new`). -/
def ffdPackPlace (pos : Nat) (size : Nat) :
    List (Int × List Nat) → Option (List (Int × List Nat))
  | [] => none
  | (b, mem) :: bs =>
    if (size : Int) ≤ b then some ((b - size, mem ++ [pos]) :: bs)
    else (ffdPackPlace pos size bs).map ((b, mem) :: ·)

/-- The outer loop of `ffd_with_result` over items
`(recorded index, size)` in processing order; when no existing bin
fits, a fresh bin with remaining capacity `c - size` is appended. -/
def ffdPackRun (c : Int) : List (Nat × Nat) → List (Int × List Nat) → List (Int × List Nat)
  | [], bins => bins
  | (pos, size) :: rest, bins =>
    match ffdPackPlace pos size bins with
    | some bins2 => ffdPackRun c rest bins2
    | none => ffdPackRun c rest (bins ++ [((c : Int) - size, [pos])])

/-- The items processed by `ffd_with_result`: for each sorted position
`a_id`, the pair `(indices[a_id] + start_index, a[indices[a_id]])`. -/
def packItems (a : List Nat) (start_index : Nat) : List (Nat × Nat) :=
  (argsortDesc a).map (fun i => (i + start_index, a.getD i 0))

/-- `ffd_with_result(a, c, start_index)` from the source: the per-bin
lists of recorded indices, and the number of items processed. -/
def ffd_with_result (a : List Nat) (c : Int) (start_index : Nat) :
    List (List Nat) × Nat :=
  ((ffdPackRun c (packItems a start_index) []).map Prod.snd, a.length)

/-! ## Allocator `allocate`

`allocate(lengths, lengths_cumsum, rank, c, n)` is a generator; we model
it as a function producing the list of accepted rounds.  Each round
keeps the full `batch` (all bins) so that properties of every bin can be
stated; the source yields `batch[rank]` from it, which
`generateBatchesPushes` below selects.  The generator's unbounded
`while True` loop is modelled with explicit fuel: `none` means the fuel
ran out before the loop hit its `break`, and `allocate` supplies fuel
`lengths.length + 2`, proved sufficient below. -/

/-- Running cumulative sums, `np.cumsum(lengths)`, starting from `s`. -/
def cumsumFrom (s : Nat) : List Nat → List Nat
  | [] => []
  | x :: rest => (s + x) :: cumsumFrom (s + x) rest

/-- `np.cumsum(lengths)`: inclusive cumulative sums. -/
def cumsum (lengths : List Nat) : List Nat := cumsumFrom 0 lengths

/-- `np.searchsorted(v, target, "right")` on a nondecreasing array `v`:
the number of entries `≤ target`. -/
def searchsortedRight (v : List Nat) (target : Int) : Nat :=
  v.countP (fun x : Nat => decide ((x : Int) ≤ target))

/-- The `while right - left > 1` binary search of `allocate`, over the
window `lengths[start_index : start_index + mid]`.  Structural recursion
on a fuel that bounds `right - left`, which strictly decreases. -/
def allocSearchGo (lengths : List Nat) (c : Int) (n : Nat) (start_index : Nat) :
    Nat → Nat → Nat → Nat
  | 0, left, _ => left
  | fuel + 1, left, right =>
    if right - left > 1 then
      let mid := (left + right) / 2
      if ffd_check ((lengths.drop start_index).take mid) c n then
        allocSearchGo lengths c n start_index fuel mid right
      else
        allocSearchGo lengths c n start_index fuel left mid
    else left

/-- The binary search with its exact fuel `right - left`: since the gap
strictly decreases each iteration, this runs the loop to completion. -/
def allocSearch (lengths : List Nat) (c : Int) (n : Nat) (start_index : Nat)
    (left right : Nat) : Nat :=
  allocSearchGo lengths c n start_index (right - left) left right

/-- One accepted round of `allocate`: the full bin list `batch`, the
item count `tot_seqs`, the cumulative used length `s` after the round,
and the slot total `len(result) * c * n`. -/
structure AllocRound where
  batch : List (List Nat)
  tot_seqs : Nat
  used : Nat
  slots : Int
deriving Repr, DecidableEq

/-- One round's search bound:
`right = 1 + np.searchsorted(lengths_cumsum[start_index:], s + c * n, "right")`. -/
def allocRight (lengths_cumsum : List Nat) (c : Int) (n : Nat)
    (start_index s : Nat) : Nat :=
  1 + searchsortedRight (lengths_cumsum.drop start_index) ((s : Int) + c * n)

/-- One round's chosen window length `left`, from the binary search
over `[1, right)`. -/
def allocLeft (lengths lengths_cumsum : List Nat) (c : Int) (n : Nat)
    (start_index s : Nat) : Nat :=
  allocSearch lengths c n start_index 1 (allocRight lengths_cumsum c n start_index s)

/-- One round's chosen window `lengths[start_index : start_index + left]`. -/
def allocWindow (lengths lengths_cumsum : List Nat) (c : Int) (n : Nat)
    (start_index s : Nat) : List Nat :=
  (lengths.drop start_index).take (allocLeft lengths lengths_cumsum c n start_index s)

/-- The `while True` loop of `allocate`.  `nres` is `len(result)`, the
number of rounds accepted so far. -/
def allocGo (lengths lengths_cumsum : List Nat) (c : Int) (n : Nat) :
    Nat → Nat → Nat → Nat → Option (List AllocRound)
  | 0, _, _, _ => none
  | fuel + 1, start_index, s, nres =>
    let left := allocLeft lengths lengths_cumsum c n start_index s
    let br := ffd_with_result (allocWindow lengths lengths_cumsum c n start_index s)
      c start_index
    if br.1.length < n then some []
    else
      let start2 := start_index + left
      let s2 := lengths_cumsum.getD (start2 - 1) 0
      match allocGo lengths lengths_cumsum c n fuel start2 s2 (nres + 1) with
      | none => none
      | some rest =>
        some ({ batch := br.1, tot_seqs := br.2, used := s2,
                slots := ((nres : Int) + 1) * c * n } :: rest)

/-- `allocate(lengths, np.cumsum(lengths), rank, c, n)` as a list of
accepted rounds (`rank` only selects `batch[rank]` at yield time and is
applied by `generateBatchesPushes`). -/
def allocate (lengths : List Nat) (c : Int) (n : Nat) : Option (List AllocRound) :=
  allocGo lengths (cumsum lengths) c n (lengths.length + 2) 0 0 0

/-! ## Producer: `generate_batches` and `_generate_batches_thread`

With no sampler, `indices = range(0, len(dataset))`, so the queue items
`[indices[b_idx] for b_idx in batch]` are the bins themselves.
`generate_batches` puts one item per round yielded by the allocator;
the thread wrapper pushes the `None` sentinel only in its `except`
branch. -/

/-- The queue items `generate_batches` pushes (sampler absent): one
`some bin` per allocated round, where `bin = batch[rank]`. -/
def generateBatchesPushes (lengths : List Nat) (c : Int) (n rank : Nat) :
    List (Option (List Nat)) :=
  match allocate lengths c n with
  | none => []
  | some rs => rs.map (fun r => some (r.batch.getD rank []))

/-- `_generate_batches_thread`: on a normal return of
`generate_batches` (`failAfter = none`) the pushes are forwarded
unchanged and no sentinel is pushed; when an exception interrupts
generation after `k` successful pushes (`failAfter = some k`), the
`except` branch pushes the `none` sentinel. -/
def threadPushes (pushes : List (Option (List Nat))) (failAfter : Option Nat) :
    List (Option (List Nat)) :=
  match failAfter with
  | Option.none => pushes
  | Option.some k => pushes.take k ++ [Option.none]

/-! ## Consumer: segment ids for the attention mask

Inside `__iter__`'s `while True` loop, `attn_mask_cum_idx = 0` is
re-executed for every batch taken from the queue, so the counter is
reset at the start of each round; each member's mask is multiplied by
`attn_mask_cum_idx + idx + 1`.  (The subsequent
`attn_mask_cum_idx += len(batched_data)` has no further effect within
the round, since the feature dict contains `attention_mask` once.) -/

/-- The packed attention-mask array of one round: member `idx`'s mask
scaled by `cum + idx + 1`, all members concatenated in order. -/
def segmentMasks (masks : List (List Nat)) (cum : Nat) : List Nat :=
  (masks.enum.map (fun p => p.2.map (fun v => (cum + p.1 + 1) * v))).flatten

/-- The attention-mask outputs of the consumer across the rounds of one
iterator lifetime: the counter is reset to `0` at each round. -/
def consumeRounds (rounds : List (List (List Nat))) : List (List Nat) :=
  rounds.map (fun masks => segmentMasks masks 0)

/-! ## Length estimator and construction checks -/

/-- `_len_est()`: float arithmetic idealised over `ℚ`.
`total // device_count` is integer division; the chain
`0.99 * share / eff / seq_max // batch` is a single floor of the exact
rational quotient; the final `- 1` is the deliberate under-estimate. -/
def lenEst (totalNumTokens deviceCount : Nat) (eff : ℚ)
    (seqMaxLength batchSize : Nat) : Int :=
  let lengthsSumPerDevice : Nat := totalNumTokens / deviceCount
  ⌊(99 / 100 : ℚ) * lengthsSumPerDevice / eff / seqMaxLength / batchSize⌋ - 1

/-- `__len__` / `len_w_stats`: `max(1, self._len_est())`. -/
def reportedLen (totalNumTokens deviceCount : Nat) (eff : ℚ)
    (seqMaxLength batchSize : Nat) : Int :=
  max 1 (lenEst totalNumTokens deviceCount eff seqMaxLength batchSize)

/-- `__iter__`'s round budget: `len_remaining = self._len_est()`,
without the `max(1, ·)` applied by `__len__`. -/
def iterBudget (totalNumTokens deviceCount : Nat) (eff : ℚ)
    (seqMaxLength batchSize : Nat) : Int :=
  lenEst totalNumTokens deviceCount eff seqMaxLength batchSize

/-- `__init__`'s validation: `assert batch_size % multiplier == 0` and
`assert batch_size >= multiplier`.  A zero multiplier makes the `%`
raise in Python, modelled as rejection.  No other configuration check
exists; in particular `seqMaxLength` is not inspected. -/
def initAccepts (seqMaxLength batchSize multiplier : Int) : Bool :=
  if multiplier = 0 then false
  else decide (batchSize % multiplier = 0) && decide (batchSize ≥ multiplier)

/-- The bin capacity handed to `allocate` by `generate_batches`:
`c = seq_max_length * sample_packing_seq_len_multiplier`. -/
def binCapacity (seqMaxLength multiplier : Int) : Int :=
  seqMaxLength * multiplier

/-- Capacity accounting invariant for the packer's bins: each bin's
remaining capacity is `c` minus the total size (under the lookup `f`)
of its recorded members, and is nonnegative. -/
def BinsAccounted (f : Nat → Nat) (c : Int) (bins : List (Int × List Nat)) : Prop :=
  ∀ p ∈ bins, p.1 = c - ((p.2.map f).sum : Nat) ∧ 0 ≤ p.1

/-! ## Lemmas on the sorting model -/

instance argLe.isTotal (a : List Nat) : IsTotal Nat (argLe a) :=
  ⟨fun i j => by unfold argLe; omega⟩

instance argLe.isTrans (a : List Nat) : IsTrans Nat (argLe a) :=
  ⟨fun i j k hij hjk => by unfold argLe at hij hjk ⊢; omega⟩

instance argLe.isAntisymm (a : List Nat) : IsAntisymm Nat (argLe a) :=
  ⟨fun i j hij hji => by unfold argLe at hij hji; omega⟩

theorem argsortDesc_perm (a : List Nat) : (argsortDesc a).Perm (List.range a.length) :=
  (List.reverse_perm _).trans (List.perm_insertionSort _ _)

theorem mem_argsortDesc {a : List Nat} {i : Nat} (h : i ∈ argsortDesc a) :
    i < a.length :=
  List.mem_range.mp (((argsortDesc_perm a).mem_iff).mp h)

theorem map_getD_range (a : List Nat) :
    (List.range a.length).map (fun i => a.getD i 0) = a := by
  apply List.ext_getElem
  · simp
  · intro i h1 h2
    simp only [List.getElem_map, List.getElem_range]
    exact List.getD_eq_getElem a 0 h2

theorem map_getD_insertionSort (a : List Nat) :
    (List.insertionSort (argLe a) (List.range a.length)).map (fun i => a.getD i 0)
      = List.insertionSort (· ≤ ·) a := by
  apply List.eq_of_perm_of_sorted (r := (· ≤ ·))
  · exact (((List.perm_insertionSort (argLe a) _).map _).trans
      (by rw [map_getD_range])).trans (List.perm_insertionSort _ a).symm
  · refine List.pairwise_map.mpr ?_
    refine (List.sorted_insertionSort (argLe a) _).imp ?_
    intro i j hij
    unfold argLe at hij
    omega
  · exact List.sorted_insertionSort _ a

theorem map_getD_argsortDesc (a : List Nat) :
    (argsortDesc a).map (fun i => a.getD i 0) = sortDesc a := by
  unfold argsortDesc sortDesc
  rw [List.map_reverse, map_getD_insertionSort]

theorem packItems_map_snd (a : List Nat) (st : Nat) :
    (packItems a st).map Prod.snd = sortDesc a := by
  unfold packItems
  rw [List.map_map]
  exact map_getD_argsortDesc a

theorem packItems_map_fst (a : List Nat) (st : Nat) :
    (packItems a st).map Prod.fst = (argsortDesc a).map (· + st) := by
  unfold packItems
  rw [List.map_map]
  rfl

/-- The packer's placement step tracks the oracle's placement step on
the remaining-capacity components of the bins. -/
theorem ffdPackPlace_map_fst (pos size : Nat) (bins : List (Int × List Nat)) :
    Option.map (List.map Prod.fst) (ffdPackPlace pos size bins)
      = ffdCheckPlace size (bins.map Prod.fst) := by
  induction bins with
  | nil => rfl
  | cons b bs ih =>
    obtain ⟨cap, mem⟩ := b
    simp only [ffdPackPlace, ffdCheckPlace, List.map_cons]
    by_cases h : (size : Int) ≤ cap
    · simp [h]
    · simp only [if_neg h]
      rw [← ih]
      cases ffdPackPlace pos size bs <;> simp

theorem ffdPackPlace_some_length {pos size : Nat} {bins bins2 : List (Int × List Nat)}
    (h : ffdPackPlace pos size bins = some bins2) : bins2.length = bins.length := by
  induction bins generalizing bins2 with
  | nil => simp [ffdPackPlace] at h
  | cons b bs ih =>
    obtain ⟨cap, mem⟩ := b
    simp only [ffdPackPlace] at h
    by_cases hc : (size : Int) ≤ cap
    · rw [if_pos hc] at h
      cases h
      simp
    · rw [if_neg hc] at h
      rcases Option.map_eq_some'.mp h with ⟨bs2, hbs2, rfl⟩
      simp [ih hbs2]

theorem ffdCheckPlace_append_some {size : Nat} {xs xs2 : List Int}
    (h : ffdCheckPlace size xs = some xs2) (ys : List Int) :
    ffdCheckPlace size (xs ++ ys) = some (xs2 ++ ys) := by
  induction xs generalizing xs2 with
  | nil => simp [ffdCheckPlace] at h
  | cons b bs ih =>
    simp only [ffdCheckPlace, List.cons_append, List.append_eq] at h ⊢
    by_cases hb : (size : Int) ≤ b
    · rw [if_pos hb] at h ⊢
      cases h
      rfl
    · rw [if_neg hb] at h ⊢
      rcases Option.map_eq_some'.mp h with ⟨bs2, hbs2, rfl⟩
      rw [ih hbs2]
      rfl

theorem ffdCheckPlace_append_none {size : Nat} {xs : List Int}
    (h : ffdCheckPlace size xs = none) (ys : List Int) :
    ffdCheckPlace size (xs ++ ys) = Option.map (xs ++ ·) (ffdCheckPlace size ys) := by
  induction xs with
  | nil =>
    cases hys : ffdCheckPlace size ys <;> simp [hys]
  | cons b bs ih =>
    simp only [ffdCheckPlace, List.cons_append, List.append_eq] at h ⊢
    by_cases hb : (size : Int) ≤ b
    · rw [if_pos hb] at h
      cases h
    · rw [if_neg hb] at h ⊢
      have hbs : ffdCheckPlace size bs = none := Option.map_eq_none'.mp h
      rw [ih hbs]
      cases ffdCheckPlace size ys <;> simp

theorem ffdCheckPlace_replicate_succ (size : Nat) (c : Int) (k : Nat) :
    ffdCheckPlace size (List.replicate (k + 1) c)
      = if (size : Int) ≤ c then some ((c - size) :: List.replicate k c) else none := by
  induction k with
  | zero => simp [ffdCheckPlace]
  | succ k ih =>
    rw [List.replicate_succ, ffdCheckPlace]
    by_cases h : (size : Int) ≤ c
    · rw [if_pos h, if_pos h]
    · rw [if_neg h, if_neg h, ih, if_neg h]
      rfl

/-- Core correspondence: if the oracle's run succeeds on the common
size sequence starting from the packer's remaining capacities padded
with untouched bins of capacity `c` up to `n` bins, then the packer
never grows beyond `n` bins. -/
theorem ffdPackRun_length_le {c : Int} {n : Nat} :
    ∀ (items : List (Nat × Nat)) (bins : List (Int × List Nat)),
      bins.length ≤ n →
      ffdCheckRun (items.map Prod.snd)
        (bins.map Prod.fst ++ List.replicate (n - bins.length) c) = true →
      (ffdPackRun c items bins).length ≤ n := by
  intro items
  induction items with
  | nil =>
    intro bins hlen _
    simpa [ffdPackRun] using hlen
  | cons it rest ih =>
    obtain ⟨pos, size⟩ := it
    intro bins hlen hrun
    simp only [List.map_cons, ffdCheckRun] at hrun
    cases hp : ffdPackPlace pos size bins with
    | some bins2 =>
      have hc : ffdCheckPlace size (bins.map Prod.fst) = some (bins2.map Prod.fst) := by
        rw [← ffdPackPlace_map_fst, hp]
        rfl
      have hlen2 : bins2.length = bins.length := ffdPackPlace_some_length hp
      rw [ffdCheckPlace_append_some hc] at hrun
      simp only [ffdPackRun, hp]
      refine ih bins2 (by omega) ?_
      rw [hlen2]
      exact hrun
    | none =>
      have hcn : ffdCheckPlace size (bins.map Prod.fst) = none := by
        rw [← ffdPackPlace_map_fst, hp]
        rfl
      rw [ffdCheckPlace_append_none hcn] at hrun
      rcases Nat.lt_or_ge bins.length n with hlt | hge
      · have hk : n - bins.length = (n - bins.length - 1) + 1 := by omega
        rw [hk, ffdCheckPlace_replicate_succ] at hrun
        by_cases hsc : (size : Int) ≤ c
        · rw [if_pos hsc] at hrun
          simp only [Option.map_some'] at hrun
          simp only [ffdPackRun, hp]
          refine ih (bins ++ [(c - size, [pos])]) (by simp; omega) ?_
          simp only [List.map_append, List.map_cons, List.map_nil, List.length_append,
            List.length_cons, List.length_nil]
          have harr : bins.map Prod.fst ++ [c - (size : Int)]
                ++ List.replicate (n - (bins.length + 0 + 1)) c
              = bins.map Prod.fst
                ++ ((c - (size : Int)) :: List.replicate (n - bins.length - 1) c) := by
            rw [List.append_assoc, List.singleton_append]
            have hn : n - (bins.length + 0 + 1) = n - bins.length - 1 := by omega
            rw [hn]
          rw [harr]
          exact hrun
        · rw [if_neg hsc] at hrun
          simp at hrun
      · have h0 : n - bins.length = 0 := by omega
        rw [h0] at hrun
        simp [ffdCheckPlace] at hrun

/-- If the oracle accepts `a` for `n` bins of capacity `c`, the packer
produces at most `n` bins. -/
theorem ffd_check_imp_bins_le {a : List Nat} {c : Int} {n : Nat} (st : Nat)
    (h : ffd_check a c n = true) : (ffd_with_result a c st).1.length ≤ n := by
  unfold ffd_with_result
  simp only [List.length_map]
  refine ffdPackRun_length_le (packItems a st) [] (Nat.zero_le n) ?_
  rw [packItems_map_snd]
  simpa [ffd_check] using h

/-- The packer opens at most one bin per item. -/
theorem ffdPackRun_length_le_items (c : Int) :
    ∀ (items : List (Nat × Nat)) (bins : List (Int × List Nat)),
      (ffdPackRun c items bins).length ≤ bins.length + items.length := by
  intro items
  induction items with
  | nil => simp [ffdPackRun]
  | cons it rest ih =>
    obtain ⟨pos, size⟩ := it
    intro bins
    simp only [ffdPackRun]
    cases hp : ffdPackPlace pos size bins with
    | some bins2 =>
      have := ih bins2
      have hlen2 : bins2.length = bins.length := ffdPackPlace_some_length hp
      simp only [List.length_cons]
      omega
    | none =>
      have := ih (bins ++ [(c - (size : Int), [pos])])
      simp only [List.length_append, List.length_cons, List.length_nil] at this
      simp only [List.length_cons]
      omega

/-- Bin count of `ffd_with_result` is at most the item count. -/
theorem ffd_with_result_length_le (a : List Nat) (c : Int) (st : Nat) :
    (ffd_with_result a c st).1.length ≤ a.length := by
  unfold ffd_with_result
  simp only [List.length_map]
  have h := ffdPackRun_length_le_items c (packItems a st) []
  simp only [List.length_nil, Nat.zero_add] at h
  have hp : (packItems a st).length = a.length := by
    unfold packItems argsortDesc
    simp
  omega

/-! ## Capacity accounting, membership, and partition of the packer -/

theorem ffdPackPlace_accounted {f : Nat → Nat} {c : Int} {pos size : Nat}
    {bins bins2 : List (Int × List Nat)} (h : ffdPackPlace pos size bins = some bins2)
    (hf : f pos = size) (hb : BinsAccounted f c bins) : BinsAccounted f c bins2 := by
  induction bins generalizing bins2 with
  | nil => simp [ffdPackPlace] at h
  | cons b bs ih =>
    obtain ⟨cap, mem⟩ := b
    simp only [ffdPackPlace] at h
    by_cases hc : (size : Int) ≤ cap
    · rw [if_pos hc] at h
      cases h
      intro p hp
      rcases List.mem_cons.mp hp with rfl | hp'
      · obtain ⟨hsum0, _⟩ := hb (cap, mem) (List.mem_cons_self _ _)
        have hsum : cap = c - (((mem.map f).sum : Nat) : Int) := hsum0
        have hf' : f pos = size := hf
        refine ⟨?_, by omega⟩
        simp only [List.map_append, List.map_cons, List.map_nil, List.sum_append,
          List.sum_cons, List.sum_nil, hf']
        push_cast at hsum ⊢
        omega
      · exact hb p (List.mem_cons_of_mem _ hp')
    · rw [if_neg hc] at h
      rcases Option.map_eq_some'.mp h with ⟨bs2, hbs2, rfl⟩
      have hbs : BinsAccounted f c bs := fun p hp => hb p (List.mem_cons_of_mem _ hp)
      intro p hp
      rcases List.mem_cons.mp hp with rfl | hp'
      · exact hb _ (List.mem_cons_self _ _)
      · exact ih hbs2 hbs p hp'

theorem ffdPackRun_accounted {f : Nat → Nat} {c : Int} :
    ∀ (items : List (Nat × Nat)) (bins : List (Int × List Nat)),
      (∀ q ∈ items, f q.1 = q.2 ∧ (q.2 : Int) ≤ c) →
      BinsAccounted f c bins → BinsAccounted f c (ffdPackRun c items bins) := by
  intro items
  induction items with
  | nil =>
    intro bins _ hb
    simpa [ffdPackRun] using hb
  | cons it rest ih =>
    obtain ⟨pos, size⟩ := it
    intro bins hitems hb
    obtain ⟨hf0, hsc0⟩ := hitems (pos, size) (List.mem_cons_self _ _)
    have hf : f pos = size := hf0
    have hsc : (size : Int) ≤ c := hsc0
    have hrest : ∀ q ∈ rest, f q.1 = q.2 ∧ (q.2 : Int) ≤ c :=
      fun q hq => hitems q (List.mem_cons_of_mem _ hq)
    simp only [ffdPackRun]
    cases hp : ffdPackPlace pos size bins with
    | some bins2 => exact ih bins2 hrest (ffdPackPlace_accounted hp hf hb)
    | none =>
      refine ih _ hrest ?_
      intro p hp2
      rcases List.mem_append.mp hp2 with hp' | hp'
      · exact hb p hp'
      · rcases List.mem_singleton.mp hp' with rfl
        refine ⟨?_, by omega⟩
        simp [hf]

/-- Each bin's recorded members form a sublist of the processed items'
recorded positions, in processing order. -/
theorem ffdPackPlace_sublist {pos size : Nat} {bins bins2 : List (Int × List Nat)}
    {done : List Nat} (h : ffdPackPlace pos size bins = some bins2)
    (hb : ∀ p ∈ bins, p.2.Sublist done) :
    ∀ p ∈ bins2, p.2.Sublist (done ++ [pos]) := by
  induction bins generalizing bins2 with
  | nil => simp [ffdPackPlace] at h
  | cons b bs ih =>
    obtain ⟨cap, mem⟩ := b
    simp only [ffdPackPlace] at h
    by_cases hc : (size : Int) ≤ cap
    · rw [if_pos hc] at h
      cases h
      intro p hp
      rcases List.mem_cons.mp hp with rfl | hp'
      · exact (hb (cap, mem) (List.mem_cons_self _ _)).append_right [pos]
      · exact List.sublist_append_of_sublist_left (hb p (List.mem_cons_of_mem _ hp'))
    · rw [if_neg hc] at h
      rcases Option.map_eq_some'.mp h with ⟨bs2, hbs2, rfl⟩
      intro p hp
      rcases List.mem_cons.mp hp with rfl | hp'
      · exact List.sublist_append_of_sublist_left (hb _ (List.mem_cons_self _ _))
      · exact ih hbs2 (fun q hq => hb q (List.mem_cons_of_mem _ hq)) p hp'

theorem ffdPackRun_sublist {c : Int} :
    ∀ (items : List (Nat × Nat)) (bins : List (Int × List Nat)) (done : List Nat),
      (∀ p ∈ bins, p.2.Sublist done) →
      ∀ p ∈ ffdPackRun c items bins, p.2.Sublist (done ++ items.map Prod.fst) := by
  intro items
  induction items with
  | nil =>
    intro bins done hb
    simpa [ffdPackRun] using hb
  | cons it rest ih =>
    obtain ⟨pos, size⟩ := it
    intro bins done hb
    simp only [ffdPackRun]
    have hassoc : done ++ (pos :: rest.map Prod.fst)
        = (done ++ [pos]) ++ rest.map Prod.fst := by
      rw [List.append_assoc, List.singleton_append]
    cases hp : ffdPackPlace pos size bins with
    | some bins2 =>
      intro p hp2
      rw [List.map_cons, hassoc]
      exact ih bins2 (done ++ [pos]) (ffdPackPlace_sublist hp hb) p hp2
    | none =>
      intro p hp2
      rw [List.map_cons, hassoc]
      refine ih _ (done ++ [pos]) ?_ p hp2
      intro q hq
      rcases List.mem_append.mp hq with hq' | hq'
      · exact List.sublist_append_of_sublist_left (hb q hq')
      · rcases List.mem_singleton.mp hq' with rfl
        exact (List.nil_sublist done).append_right [pos]

/-- Every recorded member of every bin of `ffd_with_result a c st` is
`i + st` for an original position `i < a.length`; moreover the members
of each bin appear in processing order. -/
theorem ffd_with_result_mem_sublist (a : List Nat) (c : Int) (st : Nat) :
    ∀ bin ∈ (ffd_with_result a c st).1,
      bin.Sublist ((argsortDesc a).map (· + st)) := by
  intro bin hbin
  unfold ffd_with_result at hbin
  rcases List.mem_map.mp hbin with ⟨p, hp, rfl⟩
  have := ffdPackRun_sublist (packItems a st) [] [] (by simp) p hp
  rw [List.nil_append, packItems_map_fst] at this
  exact this

/-- The sum of member sizes of each bin of `ffd_with_result` is at most
`c`, provided each individual size is at most `c`.  The member `m` of a
bin records the original position `m - st` in `a`. -/
theorem ffd_with_result_bin_sums {a : List Nat} {c : Int} (st : Nat)
    (hle : ∀ x ∈ a, (x : Int) ≤ c) :
    ∀ bin ∈ (ffd_with_result a c st).1,
      ((bin.map (fun m => a.getD (m - st) 0)).sum : Nat) ≤ c := by
  intro bin hbin
  unfold ffd_with_result at hbin
  rcases List.mem_map.mp hbin with ⟨p, hp, rfl⟩
  have hacc : BinsAccounted (fun m => a.getD (m - st) 0) c
      (ffdPackRun c (packItems a st) []) := by
    refine ffdPackRun_accounted (packItems a st) [] ?_ (by intro p hp2; simp at hp2)
    intro q hq
    unfold packItems at hq
    rcases List.mem_map.mp hq with ⟨i, hi, rfl⟩
    have hilt : i < a.length := mem_argsortDesc hi
    refine ⟨by simp, ?_⟩
    rw [List.getD_eq_getElem a 0 hilt]
    exact hle _ (List.getElem_mem hilt)
  obtain ⟨hsum, hpos⟩ := hacc p hp
  omega

/-- The bins of `ffd_with_result` partition the input positions: the
concatenation of all recorded indices is a permutation of
`{st, …, st + a.length - 1}` (in particular no index is assigned
twice), and the reported count is `a.length`. -/
theorem ffdPackPlace_flatten {pos size : Nat} {bins bins2 : List (Int × List Nat)}
    (h : ffdPackPlace pos size bins = some bins2) :
    ((bins2.map Prod.snd).flatten).Perm ((bins.map Prod.snd).flatten ++ [pos]) := by
  induction bins generalizing bins2 with
  | nil => simp [ffdPackPlace] at h
  | cons b bs ih =>
    obtain ⟨cap, mem⟩ := b
    simp only [ffdPackPlace] at h
    by_cases hc : (size : Int) ≤ cap
    · rw [if_pos hc] at h
      cases h
      simp only [List.map_cons, List.flatten_cons]
      rw [List.append_assoc, List.append_assoc]
      exact List.Perm.append_left mem List.perm_append_comm
    · rw [if_neg hc] at h
      rcases Option.map_eq_some'.mp h with ⟨bs2, hbs2, rfl⟩
      simp only [List.map_cons, List.flatten_cons]
      rw [List.append_assoc]
      exact List.Perm.append_left mem (ih hbs2)

theorem ffdPackRun_flatten {c : Int} :
    ∀ (items : List (Nat × Nat)) (bins : List (Int × List Nat)),
      (((ffdPackRun c items bins).map Prod.snd).flatten).Perm
        ((bins.map Prod.snd).flatten ++ items.map Prod.fst) := by
  intro items
  induction items with
  | nil =>
    intro bins
    simp [ffdPackRun]
  | cons it rest ih =>
    obtain ⟨pos, size⟩ := it
    intro bins
    simp only [ffdPackRun, List.map_cons]
    have hassoc : (bins.map Prod.snd).flatten ++ (pos :: rest.map Prod.fst)
        = ((bins.map Prod.snd).flatten ++ [pos]) ++ rest.map Prod.fst := by
      rw [List.append_assoc, List.singleton_append]
    cases hp : ffdPackPlace pos size bins with
    | some bins2 =>
      rw [hassoc]
      exact (ih bins2).trans ((ffdPackPlace_flatten hp).append_right _)
    | none =>
      rw [hassoc]
      refine (ih _).trans ?_
      simp

theorem ffd_with_result_partition (a : List Nat) (c : Int) (st : Nat) :
    ((ffd_with_result a c st).1.flatten).Perm ((List.range a.length).map (· + st))
      ∧ (ffd_with_result a c st).2 = a.length := by
  constructor
  · unfold ffd_with_result
    refine (ffdPackRun_flatten (packItems a st) []).trans ?_
    rw [packItems_map_fst]
    simpa using (argsortDesc_perm a).map (· + st)
  · rfl

/-! ## Lemmas on the binary search -/

/-- If the current `left` window is oracle-feasible, the search result
stays oracle-feasible: `left` is only ever replaced by a `mid` whose
window the oracle accepted. -/
theorem allocSearchGo_feasible {lengths : List Nat} {c : Int} {n : Nat}
    {start_index : Nat} :
    ∀ {fuel left right : Nat},
      ffd_check ((lengths.drop start_index).take left) c n = true →
      ffd_check ((lengths.drop start_index).take
        (allocSearchGo lengths c n start_index fuel left right)) c n = true := by
  intro fuel
  induction fuel with
  | zero => intro left right h; exact h
  | succ fuel ih =>
    intro left right h
    simp only [allocSearchGo]
    by_cases hgt : right - left > 1
    · rw [if_pos hgt]
      by_cases hf : ffd_check ((lengths.drop start_index).take ((left + right) / 2)) c n
          = true
      · rw [if_pos hf]
        exact ih hf
      · rw [if_neg hf]
        exact ih h
    · rw [if_neg hgt]
      exact h

/-- The search result is either the initial `left` (never re-checked by
the loop) or a window the oracle accepted. -/
theorem allocSearchGo_eq_or_feasible {lengths : List Nat} {c : Int} {n : Nat}
    {start_index : Nat} :
    ∀ {fuel left right : Nat},
      allocSearchGo lengths c n start_index fuel left right = left
        ∨ ffd_check ((lengths.drop start_index).take
            (allocSearchGo lengths c n start_index fuel left right)) c n = true := by
  intro fuel
  induction fuel with
  | zero => intro left right; exact Or.inl rfl
  | succ fuel ih =>
    intro left right
    simp only [allocSearchGo]
    by_cases hgt : right - left > 1
    · rw [if_pos hgt]
      by_cases hf : ffd_check ((lengths.drop start_index).take ((left + right) / 2)) c n
          = true
      · rw [if_pos hf]
        rcases @ih ((left + right) / 2) right with heq | hfe
        · rw [heq]
          exact Or.inr hf
        · exact Or.inr hfe
      · rw [if_neg hf]
        exact ih
    · rw [if_neg hgt]
      exact Or.inl rfl

/-- The search result never falls below the running `left`. -/
theorem allocSearchGo_ge {lengths : List Nat} {c : Int} {n : Nat} {start_index : Nat} :
    ∀ {fuel left right : Nat},
      left ≤ allocSearchGo lengths c n start_index fuel left right := by
  intro fuel
  induction fuel with
  | zero => intro left right; exact Nat.le_refl left
  | succ fuel ih =>
    intro left right
    simp only [allocSearchGo]
    by_cases hgt : right - left > 1
    · rw [if_pos hgt]
      by_cases hf : ffd_check ((lengths.drop start_index).take ((left + right) / 2)) c n
          = true
      · rw [if_pos hf]
        have hmid : left ≤ (left + right) / 2 := by omega
        exact hmid.trans ih
      · rw [if_neg hf]
        exact ih
    · rw [if_neg hgt]

/-- The search result never exceeds `max left (right - 1)`: `mid` is
always strictly below the running `right`. -/
theorem allocSearchGo_le {lengths : List Nat} {c : Int} {n : Nat} {start_index : Nat} :
    ∀ {fuel left right : Nat},
      allocSearchGo lengths c n start_index fuel left right ≤ max left (right - 1) := by
  intro fuel
  induction fuel with
  | zero => intro left right; exact Nat.le_max_left _ _
  | succ fuel ih =>
    intro left right
    simp only [allocSearchGo]
    by_cases hgt : right - left > 1
    · rw [if_pos hgt]
      by_cases hf : ffd_check ((lengths.drop start_index).take ((left + right) / 2)) c n
          = true
      · rw [if_pos hf]
        have h1 : allocSearchGo lengths c n start_index fuel ((left + right) / 2) right
            ≤ max ((left + right) / 2) (right - 1) := ih
        omega
      · rw [if_neg hf]
        have h1 : allocSearchGo lengths c n start_index fuel left ((left + right) / 2)
            ≤ max left ((left + right) / 2 - 1) := ih
        omega
    · rw [if_neg hgt]
      exact Nat.le_max_left _ _

/-! ## Lemmas on the allocator loop -/

theorem cumsumFrom_length (s : Nat) (l : List Nat) :
    (cumsumFrom s l).length = l.length := by
  induction l generalizing s with
  | nil => rfl
  | cons x rest ih => simp [cumsumFrom, ih]

theorem cumsum_length (l : List Nat) : (cumsum l).length = l.length :=
  cumsumFrom_length 0 l

/-- Every round in the output of `allocGo` is the packer's output on a
contiguous window of `lengths`, with `tot_seqs` the window size. -/
theorem allocGo_rounds {lengths lengths_cumsum : List Nat} {c : Int} {n : Nat} :
    ∀ {fuel start s nres : Nat} {rs : List AllocRound},
      allocGo lengths lengths_cumsum c n fuel start s nres = some rs →
      ∀ r ∈ rs, ∃ st l,
        r.batch = (ffd_with_result ((lengths.drop st).take l) c st).1
          ∧ r.tot_seqs = ((lengths.drop st).take l).length := by
  intro fuel
  induction fuel with
  | zero => intro start s nres rs h; cases h
  | succ fuel ih =>
    intro start s nres rs h
    simp only [allocGo] at h
    by_cases hlt : (ffd_with_result (allocWindow lengths lengths_cumsum c n start s)
        c start).1.length < n
    · rw [if_pos hlt] at h
      cases h
      intro r hr
      cases hr
    · rw [if_neg hlt] at h
      cases hrec : allocGo lengths lengths_cumsum c n fuel
          (start + allocLeft lengths lengths_cumsum c n start s)
          (lengths_cumsum.getD
            (start + allocLeft lengths lengths_cumsum c n start s - 1) 0)
          (nres + 1) with
      | none => rw [hrec] at h; cases h
      | some rest =>
        rw [hrec] at h
        cases h
        intro r hr
        rcases List.mem_cons.mp hr with rfl | hr'
        · exact ⟨start, allocLeft lengths lengths_cumsum c n start s, rfl, rfl⟩
        · exact ih hrec r hr'

/-- For `n ≥ 1`, the packer's bin count on the window chosen by the
binary search never exceeds `n`: the chosen `left` is either the
unverified initial `1` (at most one item, so at most one bin) or an
oracle-accepted window (correspondence). -/
theorem allocWindow_bins_le {lengths lengths_cumsum : List Nat} {c : Int} {n : Nat}
    (hn : 1 ≤ n) (start s : Nat) :
    (ffd_with_result (allocWindow lengths lengths_cumsum c n start s) c start).1.length
      ≤ n := by
  unfold allocWindow allocLeft allocSearch
  rcases @allocSearchGo_eq_or_feasible lengths c n start
      (allocRight lengths_cumsum c n start s - 1) 1
      (allocRight lengths_cumsum c n start s) with heq | hfe
  · rw [heq]
    have h1 := ffd_with_result_length_le ((lengths.drop start).take 1) c start
    have h2 : ((lengths.drop start).take 1).length ≤ 1 := by
      rw [List.length_take]
      omega
    omega
  · exact ffd_check_imp_bins_le start hfe

/-- Totality and shape of the allocator loop: with `n ≥ 1` and enough
fuel, the loop reaches its `break`; it emits at most one round per
remaining sample (the cursor advances by `left ≥ 1` each round), and
every emitted round has exactly `n` bins. -/
theorem allocGo_total {lengths lengths_cumsum : List Nat} {c : Int} {n : Nat}
    (hn : 1 ≤ n) (hcl : lengths_cumsum.length = lengths.length) :
    ∀ {fuel start s nres : Nat}, start ≤ lengths.length →
      lengths.length - start + 1 ≤ fuel →
      ∃ rs, allocGo lengths lengths_cumsum c n fuel start s nres = some rs
        ∧ rs.length ≤ lengths.length - start
        ∧ ∀ r ∈ rs, r.batch.length = n := by
  intro fuel
  induction fuel with
  | zero =>
    intro start s nres h1 h2
    exact absurd h2 (by omega)
  | succ fuel ih =>
    intro start s nres hstart hfuel
    by_cases hlt : (ffd_with_result (allocWindow lengths lengths_cumsum c n start s)
        c start).1.length < n
    · refine ⟨[], ?_, by simp, by simp⟩
      simp only [allocGo]
      rw [if_pos hlt]
    · have hble := @allocWindow_bins_le lengths lengths_cumsum c n hn start s
      have hstartlt : start < lengths.length := by
        have h1 := ffd_with_result_length_le
          (allocWindow lengths lengths_cumsum c n start s) c start
        have h2 : (allocWindow lengths lengths_cumsum c n start s).length
            = min (allocLeft lengths lengths_cumsum c n start s)
              (lengths.length - start) := by
          unfold allocWindow
          rw [List.length_take, List.length_drop]
        omega
      have hge1 : 1 ≤ allocLeft lengths lengths_cumsum c n start s := by
        unfold allocLeft allocSearch
        exact allocSearchGo_ge
      have hle2 : allocLeft lengths lengths_cumsum c n start s
          ≤ lengths.length - start := by
        have hb := @allocSearchGo_le lengths c n start
            (allocRight lengths_cumsum c n start s - 1) 1
            (allocRight lengths_cumsum c n start s)
        have h3 : searchsortedRight (lengths_cumsum.drop start) ((s : Int) + c * n)
            ≤ (lengths_cumsum.drop start).length := by
          unfold searchsortedRight
          exact List.countP_le_length _
        have h4 : (lengths_cumsum.drop start).length = lengths_cumsum.length - start :=
          List.length_drop _ _
        have h5 : allocRight lengths_cumsum c n start s
            = 1 + searchsortedRight (lengths_cumsum.drop start) ((s : Int) + c * n) := rfl
        have h6 : allocLeft lengths lengths_cumsum c n start s
            = allocSearchGo lengths c n start
                (allocRight lengths_cumsum c n start s - 1) 1
                (allocRight lengths_cumsum c n start s) := rfl
        omega
      obtain ⟨rest, hrec, hrlen, hrall⟩ := @ih
        (start + allocLeft lengths lengths_cumsum c n start s)
        (lengths_cumsum.getD (start + allocLeft lengths lengths_cumsum c n start s - 1) 0)
        (nres + 1) (by omega) (by omega)
      refine ⟨AllocRound.mk
          (ffd_with_result (allocWindow lengths lengths_cumsum c n start s) c start).1
          (ffd_with_result (allocWindow lengths lengths_cumsum c n start s) c start).2
          (lengths_cumsum.getD
            (start + allocLeft lengths lengths_cumsum c n start s - 1) 0)
          (((nres : Int) + 1) * c * n) :: rest, ?_, ?_, ?_⟩
      · simp only [allocGo]
        rw [if_neg hlt, hrec]
      · simp only [List.length_cons]
        omega
      · intro r hr
        rcases List.mem_cons.mp hr with rfl | hr'
        · show (ffd_with_result (allocWindow lengths lengths_cumsum c n start s)
            c start).1.length = n
          omega
        · exact hrall r hr'

/-! ## Concrete sanity checks (spec §8 scenarios A and B) -/

/-- Scenario A: lengths `[5,5,5,5]`, `c = 10`, `n = 1` gives exactly two
rounds of two length-5 items each (ties processed in reversed index
order). -/
theorem scenarioA : allocate [5, 5, 5, 5] 10 1 =
    some [⟨[[1, 0]], 2, 10, 10⟩, ⟨[[3, 2]], 2, 20, 20⟩] := by decide

/-- Scenario B: lengths `[9,1,9,1]`, `c = 10`, `n = 2` gives one round
of two bins, each holding a 9 and a 1. -/
theorem scenarioB : allocate [9, 1, 9, 1] 10 2 =
    some [⟨[[2, 3], [0, 1]], 4, 20, 20⟩] := by decide

/-! ## Claims -/

/-- C1 (counterexample to the claim as stated): with `lengths = [11]`,
`c = 10`, `n = 1`, the binary search never verifies its initial
`left = 1`, the lone oversized sample is packed into one bin, the round
is accepted (`1 bin, n = 1`), and the emitted bin's member-length sum is
`11 > c`. -/
theorem C1_cex :
    allocate [11] 10 1 = some [AllocRound.mk [[0]] 1 11 10]
      ∧ ¬ ((((([0] : List Nat).map (fun m => ([11] : List Nat).getD m 0)).sum : Nat) : Int)
          ≤ 10) := by
  decide

/-- C1 (amended): provided every sample length is at most the capacity
`c`, every round emitted by the allocator satisfies the bin-capacity
invariant: the member-length sum of every bin of the round (in
particular the bin yielded to any rank) is at most `c`. -/
theorem C1_bin_capacity {lengths : List Nat} {c : Int} {n : Nat}
    (hle : ∀ x ∈ lengths, (x : Int) ≤ c) :
    ∀ rs, allocate lengths c n = some rs →
      ∀ r ∈ rs, ∀ bin ∈ r.batch,
        (((bin.map (fun m => lengths.getD m 0)).sum : Nat) : Int) ≤ c := by
  intro rs hrs r hr bin hbin
  obtain ⟨st, l, hbatch, _⟩ := allocGo_rounds hrs r hr
  rw [hbatch] at hbin
  have hwle : ∀ x ∈ (lengths.drop st).take l, (x : Int) ≤ c := fun x hx =>
    hle x (((List.take_sublist l _).trans (List.drop_sublist st lengths)).subset hx)
  have hsum := ffd_with_result_bin_sums st hwle bin hbin
  have hmemb := ffd_with_result_mem_sublist ((lengths.drop st).take l) c st bin hbin
  have heq : bin.map (fun m => ((lengths.drop st).take l).getD (m - st) 0)
      = bin.map (fun m => lengths.getD m 0) := by
    apply List.map_congr_left
    intro m hm
    rcases List.mem_map.mp (hmemb.subset hm) with ⟨i, hi, rfl⟩
    have hilt : i < ((lengths.drop st).take l).length := mem_argsortDesc hi
    have hwl : ((lengths.drop st).take l).length = min l (lengths.length - st) := by
      rw [List.length_take, List.length_drop]
    have h1 : i + st - st = i := by omega
    have hlen : st + i < lengths.length := by omega
    rw [h1, Nat.add_comm i st,
      List.getD_eq_getElem ((lengths.drop st).take l) 0 hilt,
      List.getD_eq_getElem lengths 0 hlen,
      List.getElem_take, List.getElem_drop]
  rw [heq] at hsum
  exact hsum

theorem C1_bin_capacity_witness :
    (∀ x ∈ ([5, 5, 5, 5] : List Nat), (x : Int) ≤ 10)
      ∧ (∀ rs, allocate [5, 5, 5, 5] 10 1 = some rs →
          ∀ r ∈ rs, ∀ bin ∈ r.batch,
            (((bin.map (fun m => ([5, 5, 5, 5] : List Nat).getD m 0)).sum : Nat) : Int)
              ≤ 10) :=
  ⟨by decide, C1_bin_capacity (by decide)⟩

/-- C2 (counterexample to the claim as stated): `attn_mask_cum_idx = 0`
is re-executed at the start of each round of `__iter__`, so with two
one-member rounds both rounds tag their member with segment id `1`: ids
of a later round are not strictly greater than ids of earlier rounds. -/
theorem C2_cex :
    consumeRounds [[[1]], [[1]]] = [[1], [1]]
      ∧ ¬ (∀ i ∈ (consumeRounds [[[1]], [[1]]]).getD 0 [],
            ∀ j ∈ (consumeRounds [[[1]], [[1]]]).getD 1 [], i < j) := by
  decide

/-- C2 (amended): the segment counter is reset to zero at the start of
every round; within a round each member's all-ones mask becomes a run
of its own length carrying id `member position + 1` — one unique
positive id per member, strictly increasing in member order — but every
round's ids restart from `1`. -/
theorem C2_segment_ids {rounds : List (List (List Nat))}
    (hones : ∀ masks ∈ rounds, ∀ m ∈ masks, ∀ v ∈ m, v = 1) :
    consumeRounds rounds
      = rounds.map (fun masks =>
          (masks.enum.map (fun p => List.replicate p.2.length (p.1 + 1))).flatten) := by
  unfold consumeRounds
  apply List.map_congr_left
  intro masks hmasks
  unfold segmentMasks
  congr 1
  apply List.map_congr_left
  intro p hp
  obtain ⟨i, m⟩ := p
  obtain ⟨hlt, hm⟩ := List.mem_enum hp
  apply List.eq_replicate_iff.mpr
  refine ⟨by simp, ?_⟩
  intro b hb
  rcases List.mem_map.mp hb with ⟨v, hv, rfl⟩
  have hmem : m ∈ masks := by
    rw [hm]
    exact List.getElem_mem hlt
  have hv1 : v = 1 := hones masks hmasks m hmem v hv
  simp [hv1]

theorem C2_segment_ids_witness :
    (∀ masks ∈ ([[[1, 1], [1]], [[1]]] : List (List (List Nat))),
        ∀ m ∈ masks, ∀ v ∈ m, v = 1)
      ∧ consumeRounds [[[1, 1], [1]], [[1]]]
          = ([[[1, 1], [1]], [[1]]] : List (List (List Nat))).map (fun masks =>
              (masks.enum.map (fun p => List.replicate p.2.length (p.1 + 1))).flatten) :=
  ⟨by decide, C2_segment_ids (by decide)⟩

/-- C3 (counterexample to the claim as stated): on a normal return of
`generate_batches` the thread wrapper pushes no terminal marker — the
sentinel is pushed only in the `except` branch. -/
theorem C3_cex :
    threadPushes (generateBatchesPushes [5] 10 1 0) Option.none = [some [0]]
      ∧ Option.none ∉ threadPushes (generateBatchesPushes [5] 10 1 0) Option.none := by
  decide

/-- C3 (amended): the terminal marker appears in the producer's push
sequence exactly when generation failed; normal exhaustion of the
allocator pushes no marker (the consumer is unblocked only by its round
budget in that case). -/
theorem C3_sentinel (lengths : List Nat) (c : Int) (n rank : Nat)
    (failAfter : Option Nat) :
    Option.none ∈ threadPushes (generateBatchesPushes lengths c n rank) failAfter
      ↔ failAfter.isSome := by
  cases failAfter with
  | some k => simp [threadPushes]
  | none =>
    simp only [threadPushes, Option.isSome_none, Bool.false_eq_true, iff_false]
    unfold generateBatchesPushes
    cases allocate lengths c n with
    | none => simp
    | some rs => simp

/-- C4 (counterexample to the claim as stated): with 100 total tokens on
one device, efficiency 1, `seq_max_length = 100` and `batch_size = 1`,
the estimate is `⌊0.99⌋ - 1 = -1`; `__len__` reports `max(1, -1) = 1`
but `__iter__`'s budget is `-1`, which is less than 1 and differs from
the reported count. -/
theorem C4_cex :
    iterBudget 100 1 1 100 1 = -1
      ∧ reportedLen 100 1 1 100 1 = 1
      ∧ ¬ (1 ≤ iterBudget 100 1 1 100 1) := by
  have h : lenEst 100 1 1 100 1 = -1 := by
    unfold lenEst
    norm_num
  refine ⟨h, ?_, ?_⟩
  · unfold reportedLen
    rw [h]
    decide
  · unfold iterBudget
    rw [h]
    decide

/-- C4 (amended): the reported count `max(1, est)` is always at least 1,
and when the estimate itself is at least 1 the iterator's budget agrees
with the reported count; `__iter__` uses the raw estimate, so the
agreement needs that hypothesis. -/
theorem C4_budget {t d : Nat} {e : ℚ} {s b : Nat} (h : 1 ≤ lenEst t d e s b) :
    1 ≤ reportedLen t d e s b ∧ iterBudget t d e s b = reportedLen t d e s b := by
  unfold reportedLen iterBudget
  exact ⟨le_max_left 1 _, by omega⟩

/-- Evaluation helper for the C4 witness instance. -/
theorem lenEst_pos_example : (1 : Int) ≤ lenEst 1000 1 1 1 1 := by
  unfold lenEst
  norm_num

theorem C4_budget_witness :
    ((1 : Int) ≤ lenEst 1000 1 1 1 1)
      ∧ (1 ≤ reportedLen 1000 1 1 1 1
          ∧ iterBudget 1000 1 1 1 1 = reportedLen 1000 1 1 1 1) :=
  ⟨lenEst_pos_example, C4_budget lenEst_pos_example⟩

/-- C5 (counterexample to the claim as stated): in the first round of
`allocate [11] 10 1` the search range is `[1, 1)`, the loop body never
runs, and the final `left = 1` is used for packing although its window
`[11]` is rejected by the oracle — `left` is not always known
feasible. -/
theorem C5_cex :
    allocLeft [11] (cumsum [11]) 10 1 0 0 = 1
      ∧ ffd_check ((([11] : List Nat).drop 0).take
          (allocLeft [11] (cumsum [11]) 10 1 0 0)) 10 1 = false := by
  decide

/-- C5 (amended): provided the binary search starts from an
oracle-feasible `left` (the loop itself never verifies the initial
`left = 1`), `left` remains oracle-feasible throughout, so the final
`left` used for packing is oracle-feasible. -/
theorem C5_search_invariant {lengths : List Nat} {c : Int} {n : Nat}
    {start_index left right : Nat}
    (h : ffd_check ((lengths.drop start_index).take left) c n = true) :
    ffd_check ((lengths.drop start_index).take
      (allocSearch lengths c n start_index left right)) c n = true := by
  unfold allocSearch
  exact allocSearchGo_feasible h

theorem C5_search_invariant_witness :
    (ffd_check ((([5, 5] : List Nat).drop 0).take 1) 10 1 = true)
      ∧ ffd_check ((([5, 5] : List Nat).drop 0).take
          (allocSearch [5, 5] 10 1 0 1 3)) 10 1 = true :=
  ⟨by decide, C5_search_invariant (by decide)⟩

/-- C6: with worker count `n ≥ 1`, the packer never produces more than
`n` bins for the window chosen by any round's binary search, so the
code's acceptance test `¬(bin count < n)` is equivalent to the spec's
`bin count = n`. -/
theorem C6_accept_iff {lengths lengths_cumsum : List Nat} {c : Int} {n : Nat}
    (hn : 1 ≤ n) (start_index s : Nat) :
    (ffd_with_result (allocWindow lengths lengths_cumsum c n start_index s)
        c start_index).1.length ≤ n
      ∧ ((ffd_with_result (allocWindow lengths lengths_cumsum c n start_index s)
            c start_index).1.length = n
          ↔ ¬ ((ffd_with_result (allocWindow lengths lengths_cumsum c n start_index s)
              c start_index).1.length < n)) := by
  have h := @allocWindow_bins_le lengths lengths_cumsum c n hn start_index s
  exact ⟨h, by omega⟩

theorem C6_accept_iff_witness :
    (1 ≤ 2)
      ∧ ((ffd_with_result (allocWindow [9, 1, 9, 1] (cumsum [9, 1, 9, 1]) 10 2 0 0)
            10 0).1.length ≤ 2
        ∧ ((ffd_with_result (allocWindow [9, 1, 9, 1] (cumsum [9, 1, 9, 1]) 10 2 0 0)
              10 0).1.length = 2
            ↔ ¬ ((ffd_with_result (allocWindow [9, 1, 9, 1] (cumsum [9, 1, 9, 1]) 10 2 0 0)
                10 0).1.length < 2))) :=
  ⟨by decide, @C6_accept_iff [9, 1, 9, 1] (cumsum [9, 1, 9, 1]) 10 2 (by decide) 0 0⟩

/-- C7: with worker count `n ≥ 1` the allocator terminates on every
finite lengths array (the loop reaches its `break` within
`lengths.length + 2` iterations); at most one round is emitted per
input sample (the cursor advances by `left ≥ 1` each round), every
emitted round has exactly `n` bins (an undersized remainder is never
emitted), and every emitted round consumes at least one sample. -/
theorem C7_termination {lengths : List Nat} {c : Int} {n : Nat} (hn : 1 ≤ n) :
    ∃ rs, allocate lengths c n = some rs
      ∧ rs.length ≤ lengths.length
      ∧ (∀ r ∈ rs, r.batch.length = n)
      ∧ (∀ r ∈ rs, 1 ≤ r.tot_seqs) := by
  obtain ⟨rs, h1, h2, h3⟩ := @allocGo_total lengths (cumsum lengths) c n hn
    (cumsum_length lengths) (lengths.length + 2) 0 0 0 (Nat.zero_le _) (by omega)
  refine ⟨rs, h1, by omega, h3, ?_⟩
  intro r hr
  obtain ⟨st, l, hbatch, htot⟩ := allocGo_rounds h1 r hr
  have hble := ffd_with_result_length_le ((lengths.drop st).take l) c st
  have hbl := h3 r hr
  rw [htot]
  rw [hbatch] at hbl
  omega

theorem C7_termination_witness :
    (1 ≤ 1)
      ∧ (∃ rs, allocate [5, 5, 5, 5] 10 1 = some rs
          ∧ rs.length ≤ ([5, 5, 5, 5] : List Nat).length
          ∧ (∀ r ∈ rs, r.batch.length = 1)
          ∧ (∀ r ∈ rs, 1 ≤ r.tot_seqs)) :=
  ⟨by decide, @C7_termination [5, 5, 5, 5] 10 1 (by decide)⟩

/-- C8: for every size array and base index, the packer's recorded
indices form a partition of `{st, …, st + a.length - 1}`: their
concatenation is a permutation of that index range (so no index is
recorded twice — the flattening is duplicate-free), and the reported
count is `a.length`. -/
theorem C8_partition (a : List Nat) (c : Int) (st : Nat) :
    ((ffd_with_result a c st).1.flatten).Perm ((List.range a.length).map (· + st))
      ∧ ((ffd_with_result a c st).1.flatten).Nodup
      ∧ (ffd_with_result a c st).2 = a.length := by
  obtain ⟨hperm, hcount⟩ := ffd_with_result_partition a c st
  refine ⟨hperm, ?_, hcount⟩
  have hinj : Function.Injective (· + st) := fun x y h => Nat.add_right_cancel h
  exact hperm.nodup_iff.mpr (List.Nodup.map hinj (List.nodup_range _))

/-- C10 (counterexample to the claim as stated): `__init__` never
inspects `seq_max_length`; with `seq_max_length = 0`, `batch_size = 1`
and multiplier `1` both assertions pass and construction succeeds even
though the resulting bin capacity `0` is non-positive. -/
theorem C10_cex :
    initAccepts 0 1 1 = true ∧ binCapacity 0 1 ≤ 0 := by
  decide

/-- C10 (amended): construction succeeds exactly when the multiplier is
nonzero (a zero multiplier makes the `%` raise), `batch_size` is a
multiple of the multiplier, and `batch_size ≥` multiplier; the bin
capacity (hence `seq_max_length`) is not checked at all. -/
theorem C10_checks (seqMax bs mult : Int) :
    initAccepts seqMax bs mult = true
      ↔ (mult ≠ 0 ∧ bs % mult = 0 ∧ mult ≤ bs) := by
  unfold initAccepts
  by_cases h : mult = 0 <;> simp [h]

end Multipack
